import Mathlib

/-!
Verification of the maelstrom-kafka single-node log store (src/main.go).

The Go program keeps two `logs` structures, each a pair of maps:
`offsets : map[string]int` and `msgs : map[string]map[int]int`.
We embed a `map[int]int` as an association list `OffMap` (Go map semantics:
insert-or-overwrite, distinct keys) and a `map[string]T` as a function
`String → Option T`.  The four handlers (`send`, `poll`, `commit_offsets`,
`list_committed_offsets`) become pure state transitions; the mutexes in the
Go code make each handler body a single critical section, so the sequential
model below is faithful to any interleaving of completed handler calls.
-/

/-- A Go `map[int]int`, embedded as an association list. -/
abbrev OffMap := List (Int × Int)

/-- Go map read `m[o]`: first matching key. -/
def olookup : OffMap → Int → Option Int
  | [], _ => none
  | (o, m) :: rest, q => if o = q then some m else olookup rest q

/-- Go map write `m[q] = v`: overwrite the existing entry, else add one. -/
def oupdate : OffMap → Int → Int → OffMap
  | [], q, v => [(q, v)]
  | (o, m) :: rest, q, v => if o = q then (q, v) :: rest else (o, m) :: oupdate rest q v

/-- Read through an optional map: a missing map behaves as an empty one. -/
def olookupO (co : Option OffMap) (q : Int) : Option Int :=
  olookup (co.getD []) q

/-- Go map write `f[k] = v` for a string-keyed map. -/
def supdate {α : Type} (f : String → Option α) (k : String) (v : α) :
    String → Option α :=
  fun k2 => if k2 = k then some v else f k2

/-- The whole node state: the `uncommitted` and `committed` `logs` structs of
`main.go` (`unOffsets` = `uncommitted.offsets`, the per-key next-offset
counter; `coOffsets` = `committed.offsets`, the per-key last-committed
offset; `unMsgs`/`coMsgs` = the per-key offset→message maps). -/
structure NodeState where
  unOffsets : String → Option Int
  unMsgs : String → Option OffMap
  coOffsets : String → Option Int
  coMsgs : String → Option OffMap

/-- Both tables start empty (`make(map...)` in `main`). -/
def initState : NodeState :=
  { unOffsets := fun _ => none
    unMsgs := fun _ => none
    coOffsets := fun _ => none
    coMsgs := fun _ => none }

/-- The `send` handler, successful-reply path: ensure the key's message map
and counter exist (counter starting at 0), store the message at the counter
value, reply with that offset, then increment the counter.  Returns the new
state and the offset sent in the `send_ok` reply. -/
def sendStep (s : NodeState) (k : String) (m : Int) : NodeState × Int :=
  let l := (s.unMsgs k).getD []
  let off := (s.unOffsets k).getD 0
  ({ s with
      unMsgs := supdate s.unMsgs k (oupdate l off m)
      unOffsets := supdate s.unOffsets k (off + 1) }, off)

/-- The `send` handler when `node.Reply` fails: the message map and counter
were already initialised and the message stored, but the handler returns
the error before `offset++`, so the counter keeps its old value. -/
def sendStepFail (s : NodeState) (k : String) (m : Int) : NodeState :=
  let l := (s.unMsgs k).getD []
  let off := (s.unOffsets k).getD 0
  { s with
      unMsgs := supdate s.unMsgs k (oupdate l off m)
      unOffsets := supdate s.unOffsets k off }

/-- One key of the `poll` handler: if the key is in `uncommitted.msgs`,
collect the offsets ≥ the requested one, sort them ascending (`sort.Ints`),
and look each one back up; the reply map gets an entry for the key only if
at least one pair was appended. -/
def pollKey (s : NodeState) (k : String) (q : Int) : Option (List (Int × Int)) :=
  match s.unMsgs k with
  | none => none
  | some l =>
    let offs := (l.map Prod.fst).filter (fun o => decide (q ≤ o))
    let sorted := List.insertionSort (· ≤ ·) offs
    let pairs := sorted.filterMap (fun o => (olookup l o).map (fun m => (o, m)))
    if pairs.isEmpty then none else some pairs

/-- The `poll` handler over the request's `offsets` map (as a key/offset
list): builds the `msgs` reply map, omitting keys with no matching entry. -/
def pollStep (s : NodeState) (req : List (String × Int)) :
    List (String × List (Int × Int)) :=
  req.filterMap (fun p => (pollKey s p.1 p.2).map (fun l => (p.1, l)))

/-- The inner loop of `commit_offsets` for one key: walk the key's
uncommitted entries, copying each one with offset ≤ the requested offset
into the committed map (created on first copy). -/
def commitList (r : Int) : List (Int × Int) → Option OffMap → Option OffMap
  | [], co => co
  | (o, m) :: rest, co =>
    if o ≤ r then commitList r rest (some (oupdate (co.getD []) o m))
    else commitList r rest co

/-- One key of the `commit_offsets` handler: keys absent from
`uncommitted.msgs` are skipped entirely; otherwise the entries ≤ the
requested offset are copied and `committed.offsets[key]` is overwritten
with the requested offset. -/
def commitKey (s : NodeState) (k : String) (r : Int) : NodeState :=
  match s.unMsgs k with
  | none => s
  | some l =>
    { s with
        coMsgs := fun k2 => if k2 = k then commitList r l (s.coMsgs k) else s.coMsgs k2
        coOffsets := supdate s.coOffsets k r }

/-- The `commit_offsets` handler over the request's `offsets` map. -/
def commitStep (s : NodeState) (req : List (String × Int)) : NodeState :=
  req.foldl (fun acc p => commitKey acc p.1 p.2) s

/-- The `list_committed_offsets` handler: report `committed.offsets[key]`
for each requested key that has one, omitting the others. -/
def lcoStep (s : NodeState) (keys : List String) : List (String × Int) :=
  keys.filterMap (fun k => (s.coOffsets k).map (fun o => (k, o)))

/-- A client-visible operation (poll and list-committed-offsets do not
change the state but are kept so traces range over all four operations). -/
inductive Op where
  | send (k : String) (m : Int)
  | poll (req : List (String × Int))
  | commitOffsets (req : List (String × Int))
  | listCommittedOffsets (keys : List String)

/-- The state transition of one operation (successful-reply paths). -/
def stepOp (s : NodeState) : Op → NodeState
  | .send k m => (sendStep s k m).1
  | .poll _ => s
  | .commitOffsets req => commitStep s req
  | .listCommittedOffsets _ => s

/-- Run a trace of operations from a state. -/
def runOps (s : NodeState) (ops : List Op) : NodeState :=
  ops.foldl stepOp s

/-- The offsets returned by the `send_ok` replies for key `k` along a
trace, in completion order. -/
def sendOffsets (s : NodeState) (ops : List Op) (k : String) : List Int :=
  match ops with
  | [] => []
  | Op.send k2 m :: rest =>
    if k2 = k then (sendStep s k2 m).2 :: sendOffsets (sendStep s k2 m).1 rest k
    else sendOffsets (sendStep s k2 m).1 rest k
  | Op.poll _ :: rest => sendOffsets s rest k
  | Op.commitOffsets req :: rest => sendOffsets (commitStep s req) rest k
  | Op.listCommittedOffsets _ :: rest => sendOffsets s rest k

/-- How many sends to key `k` a trace contains. -/
def countSends (ops : List Op) (k : String) : Nat :=
  match ops with
  | [] => 0
  | Op.send k2 _ :: rest => (if k2 = k then 1 else 0) + countSends rest k
  | Op.poll _ :: rest => countSends rest k
  | Op.commitOffsets _ :: rest => countSends rest k
  | Op.listCommittedOffsets _ :: rest => countSends rest k

/-- All (key, offset) pairs requested by `commit_offsets` calls in a trace. -/
def commitReqPairs (ops : List Op) : List (String × Int) :=
  match ops with
  | [] => []
  | Op.send _ _ :: rest => commitReqPairs rest
  | Op.poll _ :: rest => commitReqPairs rest
  | Op.commitOffsets req :: rest => req ++ commitReqPairs rest
  | Op.listCommittedOffsets _ :: rest => commitReqPairs rest

/-- What the spec calls the pairs "stored in the Uncommitted Table for k":
the key's map read at an offset (a missing key stores nothing). -/
def storeLookup (s : NodeState) (k : String) (o : Int) : Option Int :=
  olookupO (s.unMsgs k) o

/-- Well-formedness of one key of the Uncommitted Table, as the `send`
handler maintains it: message map and counter both absent or both present,
the counter non-negative, the stored offsets pairwise distinct, and the
offsets with a stored message exactly 0 … counter−1. -/
def KeyWF : Option OffMap → Option Int → Prop
  | none, none => True
  | some l, some n =>
      0 ≤ n ∧ (l.map Prod.fst).Nodup
        ∧ ∀ o, (olookup l o).isSome ↔ (0 ≤ o ∧ o < n)
  | _, _ => False

/-- Well-formedness the Go maps guarantee by construction. -/
def StateWF (s : NodeState) : Prop :=
  ∀ k, KeyWF (s.unMsgs k) (s.unOffsets k)

/-- Every committed entry is also stored, with the same message, in the
Uncommitted Table. -/
def CoSubset (s : NodeState) : Prop :=
  ∀ k o m, olookupO (s.coMsgs k) o = some m → storeLookup s k o = some m

/-- Every committed entry's offset is bounded by some requested commit
offset for its key among `reqs`. -/
def CoBound (s : NodeState) (reqs : List (String × Int)) : Prop :=
  ∀ k o m, olookupO (s.coMsgs k) o = some m → ∃ r, (k, r) ∈ reqs ∧ o ≤ r

/-- A small concrete store used by the witnesses: two messages appended
to key k1. -/
def twoSends : NodeState :=
  runOps initState [Op.send "k1" 9, Op.send "k1" 5]

/-- A concrete reachable store where a later commit used a smaller offset
than an earlier one: send 7, send 8, commit offset 5, then commit offset 0. -/
def backCommit : NodeState :=
  runOps initState
    [Op.send "k1" 7, Op.send "k1" 8,
     Op.commitOffsets [("k1", 5)], Op.commitOffsets [("k1", 0)]]

/-! ### Association-list lemmas -/

theorem olookup_oupdate (l : OffMap) (q v o : Int) :
    olookup (oupdate l q v) o = if o = q then some v else olookup l o := by
  induction l with
  | nil =>
    simp only [oupdate, olookup]
    by_cases h : o = q
    · simp [h]
    · simp [h, Ne.symm h]
  | cons p rest ih =>
    obtain ⟨o1, m1⟩ := p
    by_cases h1 : o1 = q
    · subst h1
      by_cases h2 : o = o1
      · subst h2
        simp [oupdate, olookup]
      · simp [oupdate, olookup, h2, Ne.symm h2]
    · by_cases h2 : o1 = o
      · subst h2
        simp [oupdate, olookup, h1, ih]
      · simp [oupdate, olookup, h1, h2, ih]

theorem olookup_eq_none_of_not_mem {l : OffMap} {o : Int}
    (h : o ∉ l.map Prod.fst) : olookup l o = none := by
  induction l with
  | nil => rfl
  | cons p rest ih =>
    simp only [List.map_cons, List.mem_cons] at h
    push_neg at h
    simp [olookup, Ne.symm h.1, ih h.2]

theorem mem_keys_of_olookup {l : OffMap} {o m : Int}
    (h : olookup l o = some m) : o ∈ l.map Prod.fst := by
  by_contra hc
  rw [olookup_eq_none_of_not_mem hc] at h
  exact Option.noConfusion h

theorem mem_of_olookup {l : OffMap} {o m : Int}
    (h : olookup l o = some m) : (o, m) ∈ l := by
  induction l with
  | nil => exact Option.noConfusion h
  | cons p rest ih =>
    obtain ⟨o1, m1⟩ := p
    simp only [olookup] at h
    by_cases h1 : o1 = o
    · rw [if_pos h1, Option.some.injEq] at h
      subst h1
      subst h
      exact List.mem_cons_self _ _
    · rw [if_neg h1] at h
      exact List.mem_cons_of_mem _ (ih h)

theorem olookup_of_mem_nodup {l : OffMap} {o m : Int}
    (hnd : (l.map Prod.fst).Nodup) (h : (o, m) ∈ l) : olookup l o = some m := by
  induction l with
  | nil => exact absurd h (List.not_mem_nil _)
  | cons p rest ih =>
    obtain ⟨o1, m1⟩ := p
    simp only [List.map_cons, List.nodup_cons] at hnd
    rcases List.mem_cons.mp h with h | h
    · obtain ⟨rfl, rfl⟩ := Prod.mk.injEq .. ▸ h
      simp [olookup]
    · have hne : o1 ≠ o := by
        intro he
        exact hnd.1 (he ▸ (List.mem_map.mpr ⟨(o, m), h, rfl⟩))
      simp [olookup, hne, ih hnd.2 h]

theorem oupdate_nodup {l : OffMap} {q v : Int}
    (hnd : (l.map Prod.fst).Nodup) : ((oupdate l q v).map Prod.fst).Nodup := by
  induction l with
  | nil => simp [oupdate]
  | cons p rest ih =>
    obtain ⟨o1, m1⟩ := p
    simp only [List.map_cons, List.nodup_cons] at hnd
    by_cases h1 : o1 = q
    · subst h1
      simpa [oupdate] using hnd
    · have hkeys : ∀ x, x ∈ (oupdate rest q v).map Prod.fst → x ∈ rest.map Prod.fst ∨ x = q := by
        intro x hx
        rcases List.mem_map.mp hx with ⟨⟨xo, xm⟩, hxm, rfl⟩
        by_cases hxq : xo = q
        · exact Or.inr hxq
        · have : olookup (oupdate rest q v) xo = some xm :=
            olookup_of_mem_nodup (ih hnd.2) hxm
          rw [olookup_oupdate, if_neg hxq] at this
          exact Or.inl (mem_keys_of_olookup this)
      simp only [oupdate, if_neg h1, List.map_cons, List.nodup_cons]
      refine ⟨fun hmem => ?_, ih hnd.2⟩
      rcases hkeys o1 hmem with h | h
      · exact hnd.1 h
      · exact h1 h

theorem oupdate_eq_self {l : OffMap} {q v : Int}
    (h : olookup l q = some v) : oupdate l q v = l := by
  induction l with
  | nil => exact Option.noConfusion h
  | cons p rest ih =>
    obtain ⟨o1, m1⟩ := p
    simp only [olookup] at h
    by_cases h1 : o1 = q
    · rw [if_pos h1, Option.some.injEq] at h
      subst h1
      subst h
      simp [oupdate]
    · rw [if_neg h1] at h
      simp [oupdate, h1, ih h]

theorem supdate_lookup {α : Type} (f : String → Option α) (k : String) (v : α)
    (k2 : String) : supdate f k v k2 = if k2 = k then some v else f k2 := rfl

/-! ### Commit-loop lemmas -/

theorem olookupO_commitList (r : Int) :
    ∀ (l : OffMap) (co : Option OffMap), (l.map Prod.fst).Nodup → ∀ o : Int,
      olookupO (commitList r l co) o =
        if o ≤ r ∧ (olookup l o).isSome then olookup l o else olookupO co o := by
  intro l
  induction l with
  | nil =>
    intro co _ o
    simp [commitList, olookup]
  | cons p rest ih =>
    intro co hnd o
    obtain ⟨o1, m1⟩ := p
    simp only [List.map_cons, List.nodup_cons] at hnd
    by_cases hr : o1 ≤ r
    · have hstep : commitList r ((o1, m1) :: rest) co
          = commitList r rest (some (oupdate (co.getD []) o1 m1)) := by
        simp [commitList, hr]
      rw [hstep, ih _ hnd.2]
      by_cases ho : o1 = o
      · subst ho
        have hrest : olookup rest o1 = none := olookup_eq_none_of_not_mem hnd.1
        simp [olookup, olookupO, hrest, hr, olookup_oupdate]
      · have h1 : olookup ((o1, m1) :: rest) o = olookup rest o := by
          simp [olookup, ho]
        have hne : ¬o = o1 := fun h => ho h.symm
        have h2 : olookupO (some (oupdate (co.getD []) o1 m1)) o = olookupO co o := by
          simp [olookupO, olookup_oupdate, hne]
        rw [h1, h2]
    · have hstep : commitList r ((o1, m1) :: rest) co = commitList r rest co := by
        simp [commitList, hr]
      rw [hstep, ih _ hnd.2]
      by_cases ho : o1 = o
      · subst ho
        have hrest : olookup rest o1 = none := olookup_eq_none_of_not_mem hnd.1
        simp [olookup, hrest, hr]
      · simp [olookup, ho]

theorem commitList_fixed (r : Int) :
    ∀ (l : OffMap) (co : Option OffMap),
      (∀ o m, (o, m) ∈ l → o ≤ r → olookup (co.getD []) o = some m) →
      commitList r l co = co := by
  intro l
  induction l with
  | nil => intro co _; rfl
  | cons p rest ih =>
    intro co hco
    obtain ⟨o1, m1⟩ := p
    by_cases hr : o1 ≤ r
    · have h1 : olookup (co.getD []) o1 = some m1 :=
        hco o1 m1 (List.mem_cons_self _ _) hr
      cases co with
      | none => exact Option.noConfusion h1
      | some c =>
        have h2 : oupdate c o1 m1 = c := oupdate_eq_self h1
        simp only [commitList, if_pos hr, Option.getD_some, h2]
        exact ih _ (fun o m hm => hco o m (List.mem_cons_of_mem _ hm))
    · simp only [commitList, if_neg hr]
      exact ih _ (fun o m hm => hco o m (List.mem_cons_of_mem _ hm))

theorem commitList_idem (r : Int) (l : OffMap) (co : Option OffMap)
    (hnd : (l.map Prod.fst).Nodup) :
    commitList r l (commitList r l co) = commitList r l co := by
  apply commitList_fixed
  intro o m hm hr
  have hl : olookup l o = some m := olookup_of_mem_nodup hnd hm
  have := olookupO_commitList r l co hnd o
  rw [hl] at this
  simp only [Option.isSome_some, and_true, if_pos hr] at this
  exact this

/-! ### Frame lemmas: which fields each handler leaves alone -/

theorem commitKey_unMsgs (s : NodeState) (k : String) (r : Int) :
    (commitKey s k r).unMsgs = s.unMsgs := by
  cases h : s.unMsgs k <;> simp [commitKey, h]

theorem commitKey_unOffsets (s : NodeState) (k : String) (r : Int) :
    (commitKey s k r).unOffsets = s.unOffsets := by
  cases h : s.unMsgs k <;> simp [commitKey, h]

theorem commitStep_unMsgs (req : List (String × Int)) :
    ∀ s : NodeState, (commitStep s req).unMsgs = s.unMsgs := by
  induction req with
  | nil => intro s; rfl
  | cons p rest ih =>
    intro s
    show (commitStep (commitKey s p.1 p.2) rest).unMsgs = s.unMsgs
    rw [ih, commitKey_unMsgs]

theorem commitStep_unOffsets (req : List (String × Int)) :
    ∀ s : NodeState, (commitStep s req).unOffsets = s.unOffsets := by
  induction req with
  | nil => intro s; rfl
  | cons p rest ih =>
    intro s
    show (commitStep (commitKey s p.1 p.2) rest).unOffsets = s.unOffsets
    rw [ih, commitKey_unOffsets]

theorem sendStep_coMsgs (s : NodeState) (k : String) (m : Int) :
    (sendStep s k m).1.coMsgs = s.coMsgs := rfl

theorem sendStep_coOffsets (s : NodeState) (k : String) (m : Int) :
    (sendStep s k m).1.coOffsets = s.coOffsets := rfl

/-! ### Offset assignment (claim C1) -/

theorem sendStep_offset (s : NodeState) (k : String) (m : Int) :
    (sendStep s k m).2 = (s.unOffsets k).getD 0 := rfl

theorem sendStep_unOffsets_self (s : NodeState) (k : String) (m : Int) :
    (sendStep s k m).1.unOffsets k = some ((s.unOffsets k).getD 0 + 1) := by
  simp [sendStep, supdate]

theorem sendStep_unOffsets_other (s : NodeState) (k : String) (m : Int)
    (k2 : String) (h : k2 ≠ k) :
    (sendStep s k m).1.unOffsets k2 = s.unOffsets k2 := by
  simp [sendStep, supdate, h]

theorem cons_map_shift (a : Int) (c : Nat) :
    a :: List.map (fun i : Nat => a + 1 + (i : Int)) (List.range c)
      = List.map (fun i : Nat => a + (i : Int)) (List.range (c + 1)) := by
  rw [List.range_succ_eq_map, List.map_cons, List.map_map]
  congr 1
  · simp
  · congr 1
    funext i
    simp only [Function.comp_apply]
    push_cast
    ring

theorem sendOffsets_eq (ops : List Op) :
    ∀ (s : NodeState) (k : String),
      sendOffsets s ops k =
        List.map (fun i : Nat => (s.unOffsets k).getD 0 + (i : Int))
          (List.range (countSends ops k)) := by
  induction ops with
  | nil => intro s k; simp [sendOffsets, countSends]
  | cons op rest ih =>
    intro s k
    cases op with
    | send k2 m =>
      by_cases hk : k2 = k
      · subst hk
        have e1 : sendOffsets s (Op.send k2 m :: rest) k2
            = (sendStep s k2 m).2 :: sendOffsets (sendStep s k2 m).1 rest k2 := by
          simp [sendOffsets]
        have e2 : countSends (Op.send k2 m :: rest) k2 = countSends rest k2 + 1 := by
          simp [countSends, Nat.add_comm]
        rw [e1, e2, ih]
        have hcnt : ((sendStep s k2 m).1.unOffsets k2).getD 0
            = (s.unOffsets k2).getD 0 + 1 := by
          rw [sendStep_unOffsets_self]; rfl
        simp only [hcnt, sendStep_offset]
        exact cons_map_shift _ _
      · have e1 : sendOffsets s (Op.send k2 m :: rest) k
            = sendOffsets (sendStep s k2 m).1 rest k := by
          simp [sendOffsets, hk]
        have e2 : countSends (Op.send k2 m :: rest) k = countSends rest k := by
          simp [countSends, hk]
        rw [e1, e2, ih]
        have hcnt : ((sendStep s k2 m).1.unOffsets k).getD 0 = (s.unOffsets k).getD 0 := by
          rw [sendStep_unOffsets_other _ _ _ _ (fun h => hk h.symm)]
        simp only [hcnt]
    | poll req =>
      simp only [sendOffsets, countSends]
      exact ih s k
    | commitOffsets req =>
      simp only [sendOffsets, countSends]
      rw [ih, commitStep_unOffsets]
    | listCommittedOffsets ks =>
      simp only [sendOffsets, countSends]
      exact ih s k

/-- Claim C1: starting from the empty store, the offsets returned by the
successive sends for a key `k` along any trace of operations, in completion
order, are exactly 0, 1, 2, … (one per send to `k`, strictly increasing,
no duplicate, no gap), and every send sets `k`'s next-offset counter to its
previous value plus one. -/
theorem c1_append_offsets_dense (ops : List Op) (k : String) :
    sendOffsets initState ops k
        = List.map (fun i : Nat => (i : Int)) (List.range (countSends ops k))
    ∧ ∀ (s : NodeState) (m : Int),
        (sendStep s k m).1.unOffsets k = some ((s.unOffsets k).getD 0 + 1) := by
  constructor
  · rw [sendOffsets_eq]
    simp [initState]
  · intro s m
    exact sendStep_unOffsets_self s k m

/-! ### Poll correctness (claim C2) -/

theorem map_fst_filterMap_lookup (l : OffMap) (L : List Int) :
    (L.filterMap (fun o => (olookup l o).map (fun m => (o, m)))).map Prod.fst
      = L.filter (fun o => (olookup l o).isSome) := by
  induction L with
  | nil => rfl
  | cons a L ih =>
    cases h : olookup l a with
    | none => simp [List.filterMap_cons, List.filter_cons, h, ih]
    | some m => simp [List.filterMap_cons, List.filter_cons, h, ih]

theorem mem_filterMap_lookup (l : OffMap) (L : List Int) (o m : Int) :
    (o, m) ∈ L.filterMap (fun o2 => (olookup l o2).map (fun m2 => (o2, m2)))
      ↔ o ∈ L ∧ olookup l o = some m := by
  rw [List.mem_filterMap]
  constructor
  · rintro ⟨a, ha, hfa⟩
    obtain ⟨m2, hl2, heq⟩ := Option.map_eq_some'.mp hfa
    injection heq with h1 h2
    subst h1
    subst h2
    exact ⟨ha, hl2⟩
  · rintro ⟨hoL, hlo⟩
    exact ⟨o, hoL, by rw [hlo]; rfl⟩

/-- Claim C2: for any store state, polling key `k` from offset `q` returns
exactly the stored (offset, message) pairs of `k` with offset ≥ `q`,
strictly ascending in offset; when no pair matches (in particular when `k`
was never appended to) the reply map simply has no entry for `k`. -/
theorem c2_poll_exact (s : NodeState) (k : String) (q : Int)
    (hnd : (((s.unMsgs k).getD []).map Prod.fst).Nodup) :
    (∀ pairs, pollKey s k q = some pairs →
        List.Sorted (· < ·) (pairs.map Prod.fst)
        ∧ ∀ o m, ((o, m) ∈ pairs ↔ storeLookup s k o = some m ∧ q ≤ o))
    ∧ (pollKey s k q = none → ∀ o m, storeLookup s k o = some m → o < q)
    ∧ pollStep s [(k, q)] = ((pollKey s k q).map (fun pr => (k, pr))).toList := by
  have hlast : pollStep s [(k, q)]
      = ((pollKey s k q).map (fun pr => (k, pr))).toList := by
    cases hpkv : pollKey s k q with
    | none => simp [pollStep, List.filterMap_cons, hpkv]
    | some pr => simp [pollStep, List.filterMap_cons, hpkv]
  cases hm : s.unMsgs k with
  | none =>
    refine ⟨?_, ?_, hlast⟩
    · intro pairs hp
      simp [pollKey, hm] at hp
    · intro _ o m hsl
      rw [storeLookup, olookupO, hm] at hsl
      exact absurd hsl (by simp [olookup])
  | some l =>
    rw [hm, Option.getD_some] at hnd
    set offs := (l.map Prod.fst).filter (fun o => decide (q ≤ o)) with hoffs
    set sorted := List.insertionSort (· ≤ ·) offs with hsorted
    set pairs0 := sorted.filterMap (fun o => (olookup l o).map (fun m => (o, m)))
      with hpairs
    have hpk : pollKey s k q = if pairs0.isEmpty then none else some pairs0 := by
      simp only [pollKey, hm]
    have hnd_offs : offs.Nodup := hnd.filter _
    have hsort_le : List.Sorted (· ≤ ·) sorted :=
      List.sorted_insertionSort _ _
    have hnd_sorted : sorted.Nodup :=
      ((List.perm_insertionSort _ offs).nodup_iff).mpr hnd_offs
    have hsort_lt : List.Sorted (· < ·) sorted :=
      (hsort_le.and hnd_sorted).imp (fun h => lt_of_le_of_ne h.1 h.2)
    have hmem_sorted : ∀ o : Int, o ∈ sorted ↔ (o ∈ l.map Prod.fst ∧ q ≤ o) := by
      intro o
      rw [hsorted]
      simp [hoffs, List.mem_filter]
    have hfst : pairs0.map Prod.fst = sorted.filter (fun o => (olookup l o).isSome) :=
      map_fst_filterMap_lookup l sorted
    have hsorted_pairs : List.Sorted (· < ·) (pairs0.map Prod.fst) := by
      rw [hfst]
      exact List.Pairwise.sublist (List.filter_sublist _) hsort_lt
    have hmem_pairs : ∀ o m, ((o, m) ∈ pairs0 ↔ olookup l o = some m ∧ q ≤ o) := by
      intro o m
      rw [hpairs, mem_filterMap_lookup]
      constructor
      · rintro ⟨hos, hlo⟩
        exact ⟨hlo, ((hmem_sorted o).mp hos).2⟩
      · rintro ⟨hlo, hq⟩
        exact ⟨(hmem_sorted o).mpr ⟨mem_keys_of_olookup hlo, hq⟩, hlo⟩
    have hstore : ∀ o : Int, storeLookup s k o = olookup l o := by
      intro o
      rw [storeLookup, olookupO, hm, Option.getD_some]
    refine ⟨?_, ?_, hlast⟩
    · intro pairs hp
      rw [hpk] at hp
      by_cases he : pairs0.isEmpty
      · rw [if_pos he] at hp
        exact absurd hp (by simp)
      · rw [if_neg he] at hp
        have hpe := Option.some.inj hp
        subst hpe
        exact ⟨hsorted_pairs, fun o m => by rw [hstore]; exact hmem_pairs o m⟩
    · intro hnone o m hsl
      rw [hpk] at hnone
      by_cases he : pairs0.isEmpty
      · by_contra hno
        push_neg at hno
        have hmem : (o, m) ∈ pairs0 :=
          (hmem_pairs o m).mpr ⟨by rw [← hstore]; exact hsl, hno⟩
        rw [List.isEmpty_iff] at he
        rw [he] at hmem
        exact absurd hmem (List.not_mem_nil _)
      · rw [if_neg he] at hnone
        exact absurd hnone (by simp)

/-- Witness for claim C2 at a concrete store: two appends to k1, polled
from offset 1. -/
theorem c2_poll_exact_witness :
    (((twoSends.unMsgs "k1").getD []).map Prod.fst).Nodup
    ∧ pollStep twoSends [("k1", 1)]
        = ((pollKey twoSends "k1" 1).map (fun pr => ("k1", pr))).toList :=
  ⟨by decide, (c2_poll_exact twoSends "k1" 1 (by decide)).2.2⟩

/-! ### Commit behaviour per key (claims C3, C5, C6, C7, C9) -/

theorem commitStep_singleton (s : NodeState) (k : String) (r : Int) :
    commitStep s [(k, r)] = commitKey s k r := rfl

theorem commitKey_coOffsets_self (s : NodeState) (k : String) (r : Int)
    (l : OffMap) (hm : s.unMsgs k = some l) :
    (commitKey s k r).coOffsets k = some r := by
  simp [commitKey, hm, supdate]

theorem commitKey_coMsgs_self (s : NodeState) (k : String) (r : Int)
    (l : OffMap) (hm : s.unMsgs k = some l) :
    (commitKey s k r).coMsgs k = commitList r l (s.coMsgs k) := by
  simp [commitKey, hm]

theorem commitKey_coMsgs_other (s : NodeState) (k : String) (r : Int)
    (k2 : String) (hk : k2 ≠ k) :
    (commitKey s k r).coMsgs k2 = s.coMsgs k2 := by
  cases h : s.unMsgs k <;> simp [commitKey, h, hk]

theorem commitKey_coOffsets_other (s : NodeState) (k : String) (r : Int)
    (k2 : String) (hk : k2 ≠ k) :
    (commitKey s k r).coOffsets k2 = s.coOffsets k2 := by
  cases h : s.unMsgs k <;> simp [commitKey, h, supdate, hk]

/-- Claim C3 counterexample: from the empty store, committing offset 0 for
key k1 (never appended to) and then listing committed offsets does NOT
return the mapping k1 ↦ 0 — the key is skipped. -/
theorem c3_counterexample :
    lcoStep (commitStep initState [("k1", 0)]) ["k1"] ≠ [("k1", 0)] := by
  decide

/-- Claim C3 (amended): for every store state and offset, for every key
that IS present in the Uncommitted Table, immediately after committing the
key at the offset, list_committed_offsets for that key returns exactly
that offset, and the Committed Table holds every uncommitted entry of the
key with offset at most the committed one. -/
theorem c3_commit_visibility (s : NodeState) (k : String) (r : Int)
    (l : OffMap) (hm : s.unMsgs k = some l) (hnd : (l.map Prod.fst).Nodup) :
    lcoStep (commitStep s [(k, r)]) [k] = [(k, r)]
    ∧ ∀ o m, olookup l o = some m → o ≤ r →
        olookupO ((commitStep s [(k, r)]).coMsgs k) o = some m := by
  rw [commitStep_singleton]
  constructor
  · simp [lcoStep, List.filterMap_cons, commitKey_coOffsets_self s k r l hm]
  · intro o m hlo hor
    rw [commitKey_coMsgs_self s k r l hm, olookupO_commitList r l _ hnd o, hlo]
    simp [hor]

/-- Witness for claim C3 (amended): commit offset 0 on the two-append
store, then list it. -/
theorem c3_commit_visibility_witness :
    twoSends.unMsgs "k1" = some [(0, 9), (1, 5)]
    ∧ (([(0, 9), (1, 5)] : OffMap).map Prod.fst).Nodup
    ∧ lcoStep (commitStep twoSends [("k1", 0)]) ["k1"] = [("k1", 0)] :=
  ⟨by decide, by decide,
    (c3_commit_visibility twoSends "k1" 0 [(0, 9), (1, 5)] (by decide) (by decide)).1⟩

/-- Claim C9: committing a key that is absent from the Uncommitted Table
leaves the whole state unchanged; if the key moreover was never committed,
list_committed_offsets still omits it afterwards. -/
theorem c9_commit_unknown_noop (s : NodeState) (k : String) (r : Int)
    (hm : s.unMsgs k = none) :
    commitStep s [(k, r)] = s
    ∧ (s.coOffsets k = none → lcoStep (commitStep s [(k, r)]) [k] = []) := by
  have h1 : commitStep s [(k, r)] = s := by
    rw [commitStep_singleton]
    simp [commitKey, hm]
  refine ⟨h1, ?_⟩
  intro hco
  rw [h1]
  simp [lcoStep, List.filterMap_cons, hco]

/-- Witness for claim C9: commit offset 5 for an untouched key of the
empty store. -/
theorem c9_commit_unknown_noop_witness :
    initState.unMsgs "k9" = none
    ∧ commitStep initState [("k9", 5)] = initState
    ∧ lcoStep (commitStep initState [("k9", 5)]) ["k9"] = [] :=
  ⟨rfl, (c9_commit_unknown_noop initState "k9" 5 rfl).1,
    (c9_commit_unknown_noop initState "k9" 5 rfl).2 rfl⟩

/-- Claim C5: for a key present in the Uncommitted Table, two consecutive
commits leave the last-committed-offset at the second requested value —
an unconditional overwrite, even when the second offset is lower. -/
theorem c5_commit_overwrites_marker (s : NodeState) (k : String) (o1 o2 : Int)
    (h : (s.unMsgs k).isSome) :
    (commitStep (commitStep s [(k, o1)]) [(k, o2)]).coOffsets k = some o2 := by
  obtain ⟨l, hm⟩ := Option.isSome_iff_exists.mp h
  rw [commitStep_singleton, commitStep_singleton]
  have hm2 : (commitKey s k o1).unMsgs k = some l := by
    rw [commitKey_unMsgs, hm]
  exact commitKey_coOffsets_self _ k o2 l hm2

/-- Witness for claim C5: commit offset 3 then offset 1 — the marker moves
backward to 1. -/
theorem c5_commit_overwrites_marker_witness :
    (twoSends.unMsgs "k1").isSome
    ∧ (commitStep (commitStep twoSends [("k1", 3)]) [("k1", 1)]).coOffsets "k1"
        = some 1 :=
  ⟨by decide, c5_commit_overwrites_marker twoSends "k1" 3 1 (by decide)⟩

/-- Claim C6: committing the same key at the same offset twice in a row
leaves the Committed Table — per-key entries and markers — identical to
committing once. -/
theorem c6_commit_idempotent (s : NodeState) (k : String) (r : Int)
    (hnd : (((s.unMsgs k).getD []).map Prod.fst).Nodup) :
    (commitStep (commitStep s [(k, r)]) [(k, r)]).coMsgs
        = (commitStep s [(k, r)]).coMsgs
    ∧ (commitStep (commitStep s [(k, r)]) [(k, r)]).coOffsets
        = (commitStep s [(k, r)]).coOffsets := by
  rw [commitStep_singleton, commitStep_singleton]
  cases hm : s.unMsgs k with
  | none =>
    have h1 : commitKey s k r = s := by simp [commitKey, hm]
    rw [h1, h1]
    exact ⟨rfl, rfl⟩
  | some l =>
    rw [hm, Option.getD_some] at hnd
    have hm1 : (commitKey s k r).unMsgs k = some l := by rw [commitKey_unMsgs, hm]
    constructor
    · funext k2
      by_cases hk : k2 = k
      · subst hk
        rw [commitKey_coMsgs_self _ _ _ l hm1, commitKey_coMsgs_self _ _ _ l hm]
        exact commitList_idem r l _ hnd
      · rw [commitKey_coMsgs_other _ _ _ _ hk, commitKey_coMsgs_other _ _ _ _ hk]
    · funext k2
      by_cases hk : k2 = k
      · subst hk
        rw [commitKey_coOffsets_self _ _ _ l hm1, commitKey_coOffsets_self _ _ _ l hm]
      · rw [commitKey_coOffsets_other _ _ _ _ hk, commitKey_coOffsets_other _ _ _ _ hk]

/-- Witness for claim C6: double commit of offset 0 on the two-append
store. -/
theorem c6_commit_idempotent_witness :
    (((twoSends.unMsgs "k1").getD []).map Prod.fst).Nodup
    ∧ (commitStep (commitStep twoSends [("k1", 0)]) [("k1", 0)]).coMsgs
        = (commitStep twoSends [("k1", 0)]).coMsgs :=
  ⟨by decide, (c6_commit_idempotent twoSends "k1" 0 (by decide)).1⟩

theorem pollKey_congr (s1 s2 : NodeState) (h : s1.unMsgs = s2.unMsgs)
    (k : String) (q : Int) : pollKey s1 k q = pollKey s2 k q := by
  simp only [pollKey, h]

/-- Claim C7: commit never modifies the Uncommitted Table — neither the
per-key entries nor the next-offset counters — so any poll returns the
same result before and after any commit call. -/
theorem c7_commit_frame (s : NodeState) (req : List (String × Int)) :
    (commitStep s req).unMsgs = s.unMsgs
    ∧ (commitStep s req).unOffsets = s.unOffsets
    ∧ ∀ preq, pollStep (commitStep s req) preq = pollStep s preq := by
  refine ⟨commitStep_unMsgs req s, commitStep_unOffsets req s, ?_⟩
  intro preq
  have hfun : (fun p : String × Int =>
        (pollKey (commitStep s req) p.1 p.2).map (fun l => (p.1, l)))
      = (fun p : String × Int => (pollKey s p.1 p.2).map (fun l => (p.1, l))) := by
    funext p
    rw [pollKey_congr _ _ (commitStep_unMsgs req s) p.1 p.2]
  rw [pollStep, pollStep, hfun]

/-- Claim C10: the send handler stores the message and replies before the
counter increment, so after a failed reply the message is stored but the
counter keeps its old value; the next send to the key is assigned the same
offset again and overwrites the previously stored message. -/
theorem c10_send_reply_failure (s : NodeState) (k : String) (m1 m2 : Int) :
    storeLookup (sendStepFail s k m1) k ((s.unOffsets k).getD 0) = some m1
    ∧ (sendStepFail s k m1).unOffsets k = some ((s.unOffsets k).getD 0)
    ∧ (sendStep (sendStepFail s k m1) k m2).2 = (s.unOffsets k).getD 0
    ∧ storeLookup (sendStep (sendStepFail s k m1) k m2).1 k
        ((s.unOffsets k).getD 0) = some m2 := by
  refine ⟨?_, ?_, ?_, ?_⟩
  · simp [storeLookup, olookupO, sendStepFail, supdate, olookup_oupdate]
  · simp [sendStepFail, supdate]
  · simp [sendStep, sendStepFail, supdate]
  · simp [storeLookup, olookupO, sendStep, sendStepFail, supdate, olookup_oupdate]

/-! ### Reachable-state invariants (claim C4) -/

theorem sendStep_unMsgs_self (s : NodeState) (k : String) (m : Int) :
    (sendStep s k m).1.unMsgs k
      = some (oupdate ((s.unMsgs k).getD []) ((s.unOffsets k).getD 0) m) := by
  simp [sendStep, supdate]

theorem sendStep_unMsgs_other (s : NodeState) (k : String) (m : Int)
    (k2 : String) (h : k2 ≠ k) :
    (sendStep s k m).1.unMsgs k2 = s.unMsgs k2 := by
  simp [sendStep, supdate, h]

theorem StateWF_init : StateWF initState := fun _ => trivial

theorem StateWF_nodup (s : NodeState) (hwf : StateWF s) (k : String) (l : OffMap)
    (hm : s.unMsgs k = some l) : (l.map Prod.fst).Nodup := by
  have hwk := hwf k
  cases ho : s.unOffsets k with
  | none => rw [hm, ho] at hwk; exact False.elim hwk
  | some n =>
    rw [hm, ho] at hwk
    obtain ⟨_, hnd, _⟩ := hwk
    exact hnd

theorem StateWF_fresh (s : NodeState) (hwf : StateWF s) (k : String) :
    olookup ((s.unMsgs k).getD []) ((s.unOffsets k).getD 0) = none := by
  have hwk := hwf k
  cases hm : s.unMsgs k with
  | none => simp [olookup]
  | some l0 =>
    cases ho : s.unOffsets k with
    | none => rw [hm, ho] at hwk; exact False.elim hwk
    | some n =>
      rw [hm, ho] at hwk
      obtain ⟨hn, hnd, hdom⟩ := hwk
      simp only [Option.getD_some]
      rw [← Option.not_isSome_iff_eq_none, hdom n]
      omega

theorem StateWF_send (s : NodeState) (k : String) (m : Int) (h : StateWF s) :
    StateWF (sendStep s k m).1 := by
  intro k2
  by_cases hk : k2 = k
  · subst hk
    rw [sendStep_unMsgs_self, sendStep_unOffsets_self]
    have hwk := h k2
    cases hm : s.unMsgs k2 with
    | none =>
      cases ho : s.unOffsets k2 with
      | none =>
        show KeyWF (some (oupdate [] 0 m)) (some (0 + 1))
        refine ⟨by omega, by simp [oupdate], ?_⟩
        intro o
        rw [show oupdate [] 0 m = [(0, m)] from rfl]
        show (olookup [(0, m)] o).isSome ↔ (0 ≤ o ∧ o < 0 + 1)
        by_cases h0 : (0 : Int) = o
        · subst h0
          simp [olookup]
        · simp only [olookup, if_neg h0, Option.isSome_none]
          constructor
          · intro hfalse; exact absurd hfalse (by simp)
          · intro hrange; omega
      | some n => rw [hm, ho] at hwk; exact False.elim hwk
    | some l0 =>
      cases ho : s.unOffsets k2 with
      | none => rw [hm, ho] at hwk; exact False.elim hwk
      | some n =>
        rw [hm, ho] at hwk
        obtain ⟨hn, hnd, hdom⟩ := hwk
        show KeyWF (some (oupdate l0 n m)) (some (n + 1))
        refine ⟨by omega, oupdate_nodup hnd, ?_⟩
        intro o
        rw [olookup_oupdate]
        by_cases h0 : o = n
        · subst h0
          simp only [if_pos rfl, Option.isSome_some]
          constructor
          · intro _; omega
          · intro _; rfl
        · rw [if_neg h0, hdom o]
          omega
  · rw [sendStep_unMsgs_other _ _ _ _ hk, sendStep_unOffsets_other _ _ _ _ hk]
    exact h k2

theorem StateWF_commitKey (s : NodeState) (k : String) (r : Int)
    (h : StateWF s) : StateWF (commitKey s k r) := by
  intro k2
  rw [commitKey_unMsgs, commitKey_unOffsets]
  exact h k2

theorem StateWF_commitStep (req : List (String × Int)) :
    ∀ s : NodeState, StateWF s → StateWF (commitStep s req) := by
  induction req with
  | nil => intro s h; exact h
  | cons p rest ih =>
    intro s h
    exact ih _ (StateWF_commitKey s p.1 p.2 h)

theorem CoSubset_init : CoSubset initState := by
  intro k o m h
  simp [initState, olookupO, olookup] at h

theorem CoSubset_send (s : NodeState) (k : String) (m : Int)
    (hwf : StateWF s) (hsub : CoSubset s) : CoSubset (sendStep s k m).1 := by
  intro k2 o mv hco
  rw [show (sendStep s k m).1.coMsgs = s.coMsgs from rfl] at hco
  have hun := hsub k2 o mv hco
  rw [storeLookup, olookupO] at hun
  by_cases hk : k2 = k
  · subst hk
    rw [storeLookup, olookupO, sendStep_unMsgs_self, Option.getD_some, olookup_oupdate]
    have hne : o ≠ (s.unOffsets k2).getD 0 := by
      intro he
      rw [he, StateWF_fresh s hwf k2] at hun
      exact Option.noConfusion hun
    rw [if_neg hne]
    exact hun
  · rw [storeLookup, olookupO, sendStep_unMsgs_other _ _ _ _ hk]
    exact hun

theorem CoSubset_commitKey (s : NodeState) (k : String) (r : Int)
    (hwf : StateWF s) (hsub : CoSubset s) : CoSubset (commitKey s k r) := by
  intro k2 o m hco
  have hst : storeLookup (commitKey s k r) k2 o = storeLookup s k2 o := by
    rw [storeLookup, storeLookup, commitKey_unMsgs]
  rw [hst]
  by_cases hk : k2 = k
  · subst hk
    cases hm : s.unMsgs k2 with
    | none =>
      rw [show commitKey s k2 r = s from by simp [commitKey, hm]] at hco
      exact hsub k2 o m hco
    | some l0 =>
      rw [commitKey_coMsgs_self _ _ _ l0 hm,
        olookupO_commitList r l0 _ (StateWF_nodup s hwf k2 l0 hm) o] at hco
      by_cases hc : o ≤ r ∧ (olookup l0 o).isSome
      · rw [if_pos hc] at hco
        rw [storeLookup, olookupO, hm, Option.getD_some]
        exact hco
      · rw [if_neg hc] at hco
        exact hsub k2 o m hco
  · rw [commitKey_coMsgs_other _ _ _ _ hk] at hco
    exact hsub k2 o m hco

theorem CoSubset_commitStep (req : List (String × Int)) :
    ∀ s : NodeState, StateWF s → CoSubset s → CoSubset (commitStep s req) := by
  induction req with
  | nil => intro s _ h; exact h
  | cons p rest ih =>
    intro s hwf hsub
    exact ih _ (StateWF_commitKey s p.1 p.2 hwf) (CoSubset_commitKey s p.1 p.2 hwf hsub)

theorem CoBound_init (reqs : List (String × Int)) : CoBound initState reqs := by
  intro k o m h
  simp [initState, olookupO, olookup] at h

theorem CoBound_mono (s : NodeState) (reqs reqs2 : List (String × Int))
    (h : CoBound s reqs) (hsub : ∀ p ∈ reqs, p ∈ reqs2) : CoBound s reqs2 := by
  intro k o m hco
  obtain ⟨r, hr, hor⟩ := h k o m hco
  exact ⟨r, hsub _ hr, hor⟩

theorem CoBound_send (s : NodeState) (k : String) (m : Int)
    (reqs : List (String × Int)) (hb : CoBound s reqs) :
    CoBound (sendStep s k m).1 reqs := by
  intro k2 o mv hco
  rw [show (sendStep s k m).1.coMsgs = s.coMsgs from rfl] at hco
  exact hb k2 o mv hco

theorem CoBound_commitKey (s : NodeState) (k : String) (r : Int)
    (reqs : List (String × Int)) (hwf : StateWF s) (hb : CoBound s reqs) :
    CoBound (commitKey s k r) ((k, r) :: reqs) := by
  intro k2 o m hco
  by_cases hk : k2 = k
  · subst hk
    cases hm : s.unMsgs k2 with
    | none =>
      rw [show commitKey s k2 r = s from by simp [commitKey, hm]] at hco
      obtain ⟨r2, hr2, ho2⟩ := hb k2 o m hco
      exact ⟨r2, List.mem_cons_of_mem _ hr2, ho2⟩
    | some l0 =>
      rw [commitKey_coMsgs_self _ _ _ l0 hm,
        olookupO_commitList r l0 _ (StateWF_nodup s hwf k2 l0 hm) o] at hco
      by_cases hc : o ≤ r ∧ (olookup l0 o).isSome
      · exact ⟨r, List.mem_cons_self _ _, hc.1⟩
      · rw [if_neg hc] at hco
        obtain ⟨r2, hr2, ho2⟩ := hb k2 o m hco
        exact ⟨r2, List.mem_cons_of_mem _ hr2, ho2⟩
  · rw [commitKey_coMsgs_other _ _ _ _ hk] at hco
    obtain ⟨r2, hr2, ho2⟩ := hb k2 o m hco
    exact ⟨r2, List.mem_cons_of_mem _ hr2, ho2⟩

theorem CoBound_commitStep (req : List (String × Int)) :
    ∀ (s : NodeState) (reqs : List (String × Int)), StateWF s → CoBound s reqs →
      CoBound (commitStep s req) (req ++ reqs) := by
  induction req with
  | nil => intro s reqs _ h; exact h
  | cons p rest ih =>
    obtain ⟨k, r⟩ := p
    intro s reqs hwf hb
    have h1 := ih (commitKey s k r) ((k, r) :: reqs)
      (StateWF_commitKey s k r hwf) (CoBound_commitKey s k r reqs hwf hb)
    apply CoBound_mono _ _ _ h1
    intro q hq
    simp only [List.mem_append, List.mem_cons] at hq ⊢
    tauto

theorem runOps_inv (ops : List Op) :
    ∀ (s : NodeState) (reqs : List (String × Int)),
      StateWF s → CoSubset s → CoBound s reqs →
      StateWF (runOps s ops) ∧ CoSubset (runOps s ops)
        ∧ CoBound (runOps s ops) (commitReqPairs ops ++ reqs) := by
  induction ops with
  | nil =>
    intro s reqs h1 h2 h3
    exact ⟨h1, h2, h3⟩
  | cons op rest ih =>
    intro s reqs h1 h2 h3
    cases op with
    | send k m =>
      have hres := ih (sendStep s k m).1 reqs (StateWF_send s k m h1)
        (CoSubset_send s k m h1 h2) (CoBound_send s k m reqs h3)
      simpa [commitReqPairs] using hres
    | poll preq =>
      simpa [commitReqPairs] using ih s reqs h1 h2 h3
    | commitOffsets req =>
      have hres := ih (commitStep s req) (req ++ reqs)
        (StateWF_commitStep req s h1) (CoSubset_commitStep req s h1 h2)
        (CoBound_commitStep req s reqs h1 h3)
      refine ⟨hres.1, hres.2.1, ?_⟩
      apply CoBound_mono _ _ _ hres.2.2
      intro q hq
      simp only [commitReqPairs, List.mem_append] at hq ⊢
      tauto
    | listCommittedOffsets ks =>
      simpa [commitReqPairs] using ih s reqs h1 h2 h3

/-- Claim C4 counterexample: backCommit is reachable (send 7, send 8 to
k1, commit offset 5, commit offset 0); its Committed Table for k1 stores
offset 1 ↦ 8, yet the last-committed-offset recorded by the most recent
commit is 0, and 1 ≤ 0 fails. -/
theorem c4_counterexample :
    olookupO (backCommit.coMsgs "k1") 1 = some 8
    ∧ backCommit.coOffsets "k1" = some 0
    ∧ ¬((1 : Int) ≤ 0) :=
  ⟨by decide, by decide, by decide⟩

/-- Claim C4 (amended): in every state reachable from the empty store,
every entry of the Committed Table for a key is present with the same
message in the Uncommitted Table for that key, and its offset is at most
SOME commit offset requested for that key during the trace — not
necessarily the one of the most recent commit, since a later commit with a
lower offset moves the marker below older committed entries. -/
theorem c4_committed_subset (ops : List Op) (k : String) (o m : Int)
    (h : olookupO ((runOps initState ops).coMsgs k) o = some m) :
    storeLookup (runOps initState ops) k o = some m
    ∧ ∃ r, (k, r) ∈ commitReqPairs ops ∧ o ≤ r := by
  have hinv := runOps_inv ops initState [] StateWF_init CoSubset_init (CoBound_init [])
  refine ⟨hinv.2.1 k o m h, ?_⟩
  obtain ⟨r, hr, hor⟩ := hinv.2.2 k o m h
  rw [List.append_nil] at hr
  exact ⟨r, hr, hor⟩

/-- Witness for claim C4 (amended): one send then one commit of offset 0. -/
theorem c4_committed_subset_witness :
    olookupO ((runOps initState
        [Op.send "k1" 7, Op.commitOffsets [("k1", 0)]]).coMsgs "k1") 0 = some 7
    ∧ storeLookup (runOps initState
        [Op.send "k1" 7, Op.commitOffsets [("k1", 0)]]) "k1" 0 = some 7
    ∧ ∃ r, ("k1", r) ∈ commitReqPairs [Op.send "k1" 7, Op.commitOffsets [("k1", 0)]]
        ∧ (0 : Int) ≤ r :=
  ⟨by decide,
    (c4_committed_subset [Op.send "k1" 7, Op.commitOffsets [("k1", 0)]]
      "k1" 0 7 (by decide)).1,
    (c4_committed_subset [Op.send "k1" 7, Op.commitOffsets [("k1", 0)]]
      "k1" 0 7 (by decide)).2⟩

/-! ### Unknown keys (claim C8) -/

theorem runOps_unMsgs_frame (ops : List Op) :
    ∀ (s : NodeState) (k : String), countSends ops k = 0 →
      (runOps s ops).unMsgs k = s.unMsgs k := by
  induction ops with
  | nil => intro s k _; rfl
  | cons op rest ih =>
    intro s k h
    cases op with
    | send k2 m =>
      simp only [countSends] at h
      by_cases hk : k2 = k
      · rw [if_pos hk] at h
        omega
      · rw [if_neg hk] at h
        show (runOps (sendStep s k2 m).1 rest).unMsgs k = s.unMsgs k
        rw [ih _ _ (by omega), sendStep_unMsgs_other _ _ _ _ (fun he => hk he.symm)]
    | poll preq =>
      simp only [countSends] at h
      exact ih s k h
    | commitOffsets req =>
      simp only [countSends] at h
      show (runOps (commitStep s req) rest).unMsgs k = s.unMsgs k
      rw [ih _ _ h, commitStep_unMsgs]
    | listCommittedOffsets ks =>
      simp only [countSends] at h
      exact ih s k h

theorem commitStep_coOffsets_frame (req : List (String × Int)) :
    ∀ (s : NodeState) (k : String), (∀ p ∈ req, p.1 ≠ k) →
      (commitStep s req).coOffsets k = s.coOffsets k := by
  induction req with
  | nil => intro s k _; rfl
  | cons p rest ih =>
    intro s k h
    show (commitStep (commitKey s p.1 p.2) rest).coOffsets k = s.coOffsets k
    rw [ih _ _ (fun q hq => h q (List.mem_cons_of_mem _ hq))]
    exact commitKey_coOffsets_other s p.1 p.2 k (h p (List.mem_cons_self _ _)).symm

theorem runOps_coOffsets_frame (ops : List Op) :
    ∀ (s : NodeState) (k : String), (∀ p ∈ commitReqPairs ops, p.1 ≠ k) →
      (runOps s ops).coOffsets k = s.coOffsets k := by
  induction ops with
  | nil => intro s k _; rfl
  | cons op rest ih =>
    intro s k h
    cases op with
    | send k2 m =>
      show (runOps (sendStep s k2 m).1 rest).coOffsets k = s.coOffsets k
      rw [ih _ _ (by simpa [commitReqPairs] using h)]
      rfl
    | poll preq =>
      exact ih s k (by simpa [commitReqPairs] using h)
    | commitOffsets req =>
      simp only [commitReqPairs] at h
      show (runOps (commitStep s req) rest).coOffsets k = s.coOffsets k
      rw [ih _ _ (fun p hp => h p (List.mem_append.mpr (Or.inr hp)))]
      exact commitStep_coOffsets_frame req s k
        (fun p hp => h p (List.mem_append.mpr (Or.inl hp)))
    | listCommittedOffsets ks =>
      exact ih s k (by simpa [commitReqPairs] using h)

/-- Claim C8: for a key never appended to along a trace, any poll result
has no entry for that key; for a key never named by a commit, any
list_committed_offsets result has no entry for it (in particular it is not
mapped to 0); both handlers still return a normal (possibly empty) reply. -/
theorem c8_unknown_keys_omitted (ops : List Op) (k : String) (q : Int)
    (preq : List (String × Int)) (keys : List String)
    (hs : countSends ops k = 0)
    (hc : ∀ p ∈ commitReqPairs ops, p.1 ≠ k) :
    (∀ e ∈ pollStep (runOps initState ops) preq, e.1 ≠ k)
    ∧ (∀ e ∈ lcoStep (runOps initState ops) keys, e.1 ≠ k)
    ∧ pollStep (runOps initState ops) [(k, q)] = []
    ∧ lcoStep (runOps initState ops) [k] = [] := by
  have hun : (runOps initState ops).unMsgs k = none := by
    rw [runOps_unMsgs_frame ops initState k hs]
    rfl
  have hco : (runOps initState ops).coOffsets k = none := by
    rw [runOps_coOffsets_frame ops initState k hc]
    rfl
  have hpk : ∀ q2, pollKey (runOps initState ops) k q2 = none := by
    intro q2
    simp [pollKey, hun]
  refine ⟨?_, ?_, ?_, ?_⟩
  · intro e he hek
    rw [pollStep, List.mem_filterMap] at he
    obtain ⟨p, hp, hfp⟩ := he
    obtain ⟨l, hl, hel⟩ := Option.map_eq_some'.mp hfp
    rw [← hel] at hek
    rw [show ((p.1, l) : String × List (Int × Int)).1 = p.1 from rfl] at hek
    rw [hek, hpk p.2] at hl
    exact Option.noConfusion hl
  · intro e he hek
    rw [lcoStep, List.mem_filterMap] at he
    obtain ⟨k2, hk2, hfk⟩ := he
    obtain ⟨o, hoe, heq⟩ := Option.map_eq_some'.mp hfk
    rw [← heq] at hek
    rw [show ((k2, o) : String × Int).1 = k2 from rfl] at hek
    rw [hek, hco] at hoe
    exact Option.noConfusion hoe
  · simp [pollStep, List.filterMap_cons, hpk q]
  · simp [lcoStep, List.filterMap_cons, hco]

/-- Witness for claim C8: a trace that touches only k2, queried for k1. -/
theorem c8_unknown_keys_omitted_witness :
    countSends [Op.send "k2" 1, Op.commitOffsets [("k2", 0)]] "k1" = 0
    ∧ (∀ p ∈ commitReqPairs [Op.send "k2" 1, Op.commitOffsets [("k2", 0)]],
        p.1 ≠ "k1")
    ∧ pollStep (runOps initState [Op.send "k2" 1, Op.commitOffsets [("k2", 0)]])
        [("k1", 0)] = []
    ∧ lcoStep (runOps initState [Op.send "k2" 1, Op.commitOffsets [("k2", 0)]])
        ["k1"] = [] :=
  ⟨by decide, by decide,
    (c8_unknown_keys_omitted [Op.send "k2" 1, Op.commitOffsets [("k2", 0)]]
      "k1" 0 [] [] (by decide) (by decide)).2.2.1,
    (c8_unknown_keys_omitted [Op.send "k2" 1, Op.commitOffsets [("k2", 0)]]
      "k1" 0 [] [] (by decide) (by decide)).2.2.2⟩
